import Mathlib

/-!
Verification of the raw-disk merkledb storage engine: the on-disk branch-node
codec (`encodeDiskBranchNode` / `decodeDiskBranchNode` / `encodeDiskBranchNodeSize`),
the fixed-width disk-address codec (`diskAddress.bytes` / `diskAddress.decode`),
the point-lookup traversal (`rawDisk.getNode`), and the copy-on-write batch
writer (`rawDisk.writeChanges`).

Bytes are modelled as `Nat` values below 256, byte sequences as `List Nat`.
Machine `int64` fields are modelled as `Int` with the unsigned reinterpretation
made explicit (`toU64` / `fromU64`).  Keys are modelled at token granularity:
a key is a sequence of byte-wide tokens, so one token is consumed per trie
edge (the source's configurable bit-width `tokenSize` becomes one token).

The codec helpers used by the source (`codecWriter`/`codecReader` primitives,
`uintSize`, `childSize`, `BranchFactorLargest`, the `Key` and `child` types)
are not part of the available source files; they are modelled from the spec's
wire-format description and marked `Modelled from the spec:` in their doc
comments.  Everything else is translated directly from the source.
-/

namespace AvaMerkleDB

/-- Decidable equality for `Except`, needed to settle concrete decoder runs
by `decide`. -/
instance {ε α : Type} [DecidableEq ε] [DecidableEq α] : DecidableEq (Except ε α) := fun a b =>
  match a, b with
  | .ok x, .ok y => if h : x = y then .isTrue (by rw [h]) else .isFalse (by intro hc; cases hc; exact h rfl)
  | .error x, .error y => if h : x = y then .isTrue (by rw [h]) else .isFalse (by intro hc; cases hc; exact h rfl)
  | .ok _, .error _ => .isFalse (by intro hc; cases hc)
  | .error _, .ok _ => .isFalse (by intro hc; cases hc)

/-! ## Unsigned varints and fixed-width big-endian words -/

/-- Fuel-driven body of the LEB128 unsigned varint encoder
(`binary.AppendUvarint`): emit seven payload bits per byte, least significant
group first, setting the continuation bit on every byte but the last.
Structured with explicit fuel so that concrete encodings reduce inside the
kernel; `putUvarint` supplies sufficient fuel. -/
def putUvarintAux : Nat → Nat → List Nat
  | 0, _ => []
  | fuel + 1, x => if x < 128 then [x] else (x % 128 + 128) :: putUvarintAux fuel (x / 128)

/-- Encoding of `x` as an unsigned varint (`binary.AppendUvarint`). -/
def putUvarint (x : Nat) : List Nat := putUvarintAux (x + 1) x

/-- Modelled from the spec: `uintSize` computes the exact byte length of the
varint encoding of `x`, used by `encodeDiskBranchNodeSize` ("computes the
exact encoded length without allocating the encoding"). -/
def uintSize (x : Nat) : Nat := (putUvarint x).length

/-- Errors returned by the decoder.  The Go source surfaces
`io.ErrUnexpectedEOF` for truncated fields, `errTooManyChildren`,
`errChildIndexTooLarge`, `errExtraSpace`, and an invalid-boolean error; all of
them are `MalformedEncoding`-class failures. -/
inductive DecErr where
  | unexpectedEOF
  | invalidBool
  | tooManyChildren
  | childIndexTooLarge
  | extraSpace
deriving DecidableEq

/-- Modelled from the spec: the varint reader; consumes continuation-flagged
bytes and fails with `unexpectedEOF` when the input ends mid-varint. -/
def readUvarint : List Nat → Except DecErr (Nat × List Nat)
  | [] => .error .unexpectedEOF
  | b :: rest =>
    if b < 128 then .ok (b, rest)
    else
      match readUvarint rest with
      | .ok (x, r) => .ok (b - 128 + 128 * x, r)
      | .error e => .error e

/-- Modelled from the spec: the fixed-count byte reader (`codecReader.Read`);
fails with `unexpectedEOF` when fewer than `n` bytes remain. -/
def readN (n : Nat) (b : List Nat) : Except DecErr (List Nat × List Nat) :=
  if b.length < n then .error .unexpectedEOF else .ok (b.take n, b.drop n)

/-- Big-endian encoding of the low 64 bits of `x` into 8 bytes
(`binary.BigEndian.PutUint64`). -/
def putU64BE (x : Nat) : List Nat :=
  [x / 2 ^ 56 % 256, x / 2 ^ 48 % 256, x / 2 ^ 40 % 256, x / 2 ^ 32 % 256,
   x / 2 ^ 24 % 256, x / 2 ^ 16 % 256, x / 2 ^ 8 % 256, x % 256]

/-- Big-endian read of a 64-bit word from the first 8 bytes
(`binary.BigEndian.Uint64`; all call sites pass at least 8 bytes, shorter
input is padded with zeros here rather than panicking). -/
def readU64BE (b : List Nat) : Nat :=
  b.getD 0 0 * 2 ^ 56 + b.getD 1 0 * 2 ^ 48 + b.getD 2 0 * 2 ^ 40 + b.getD 3 0 * 2 ^ 32 +
    b.getD 4 0 * 2 ^ 24 + b.getD 5 0 * 2 ^ 16 + b.getD 6 0 * 2 ^ 8 + b.getD 7 0

/-- Reinterpretation of an `int64` value as a `uint64` (Go's `uint64(x)`). -/
def toU64 (i : Int) : Nat := (i % 2 ^ 64).toNat

/-- Reinterpretation of a `uint64` value as an `int64` (Go's `int64(x)`). -/
def fromU64 (n : Nat) : Int := if n < 2 ^ 63 then (n : Int) else (n : Int) - 2 ^ 64

/-- Range of values representable by a Go `int64` field. -/
def int64Range (i : Int) : Prop := -(2 ^ 63) ≤ i ∧ i < 2 ^ 63

/-! ## Data model (raw_disk.go, and spec §3 for the parts outside src/) -/

/-- Modelled from the spec: a trie key is "an ordered sequence of fixed-width
tokens"; the upstream `Key` type is not in the available sources.  Tokens are
byte-wide here, so `length` (in tokens) is `tokens.length`. -/
structure Key where
  tokens : List Nat
deriving DecidableEq

/-- The `[offset:offset+size]` byte range naming a node in the file
(`diskAddress` in raw_disk.go); both fields are `int64`. -/
structure diskAddress where
  offset : Int
  size : Int
deriving DecidableEq

/-- Modelled from the spec: the in-memory child entry of the upstream `child`
type — "`{index: token, compressedKey: suffix-of-path-to-skip, id: merkle
digest of child subtree, hasValue: bool}`" — without the disk address, which
lives in `diskChild`.  The digest `id` is a fixed 32-byte value. -/
structure child where
  compressedKey : Key
  id : List Nat
  hasValue : Bool
deriving DecidableEq

/-- A child entry together with its disk address (`diskChild` in raw_disk.go). -/
structure diskChild where
  child : child
  address : diskAddress
deriving DecidableEq

/-- A branch node in disk form (`diskBranchNode` in raw_disk.go): an optional
value and a token-indexed child mapping.  The Go `map[byte]*diskChild` is
modelled as an association list; map-ness (pairwise-distinct keys below 256)
is assumed where the source's type guarantees it. -/
structure diskBranchNode where
  value : Option (List Nat)
  children : List (Nat × diskChild)
deriving DecidableEq

/-- Byte length of an encoded boolean (spec wire format: "has-value flag
(1 byte)"). -/
def boolLen : Nat := 1

/-- Byte length of a child merkle digest (spec wire format: "fixed-width
digest"; `ids.ID` is 32 bytes). -/
def idLen : Nat := 32

/-- Byte length of an encoded `diskAddress` (`diskAddressSize` in
raw_disk.go). -/
def diskAddressSize : Nat := 16

/-- Modelled from the spec: the largest branch factor — the maximum child
count "representable by the token width", 256 for byte-wide tokens. -/
def BranchFactorLargest : Nat := 256

/-! ## Codec writers (spec §6 wire format; `codecWriter` is not in src/) -/

/-- Modelled from the spec: `codecWriter.Bool` emits one byte, 1 for true and
0 for false. -/
def putBool (b : Bool) : List Nat := [if b then 1 else 0]

/-- Modelled from the spec: `codecWriter.Key` emits the key's token length as
a varint followed by the token bytes ("compressedKey: len+tokens"). -/
def putKey (k : Key) : List Nat := putUvarint k.tokens.length ++ k.tokens

/-- Modelled from the spec: `codecWriter.MaybeBytes` emits a presence flag,
then, when present, a length-prefixed byte string ("a presence
flag/length-prefix followed by raw bytes if present"). -/
def putMaybeBytes : Option (List Nat) → List Nat
  | none => putBool false
  | some v => putBool true ++ putUvarint v.length ++ v

/-- The per-child byte sequence emitted by `encodeDiskBranchNode` (part_000
lines 37-45): index varint, compressed key, digest, has-value flag, then the
address offset and size as varints. -/
def emitChild (p : Nat × diskChild) : List Nat :=
  putUvarint p.1 ++ putKey p.2.child.compressedKey ++ p.2.child.id ++
    putBool p.2.child.hasValue ++ putUvarint (toU64 p.2.address.offset) ++
    putUvarint (toU64 p.2.address.size)

/-- Concatenated child entries in the order given. -/
def emitChildren (ps : List (Nat × diskChild)) : List Nat := (ps.map emitChild).flatten

/-- Comparison of child entries by token index, the order `slices.Sort`
imposes on the collected keys. -/
def childKeyLE (a b : Nat × diskChild) : Prop := a.1 ≤ b.1

instance : DecidableRel childKeyLE := fun a b => inferInstanceAs (Decidable (a.1 ≤ b.1))

instance : IsTotal (Nat × diskChild) childKeyLE := ⟨fun a b => Nat.le_total a.1 b.1⟩

instance : IsTrans (Nat × diskChild) childKeyLE := ⟨fun _ _ _ h₁ h₂ => Nat.le_trans h₁ h₂⟩

/-- The sorted materialization of the child map: the source collects the map's
keys, sorts them ascending (`slices.Sort`), and emits each key's entry; with
pairwise-distinct keys (a `map[byte]` guarantee) this equals sorting the
entries by key. -/
def sortChildren (cs : List (Nat × diskChild)) : List (Nat × diskChild) :=
  cs.insertionSort childKeyLE

/-- Translation of `encodeDiskBranchNode` (part_000 lines 9-48): optional value, child count,
then each child in ascending index order. -/
def encodeDiskBranchNode (n : diskBranchNode) : List Nat :=
  let b := putMaybeBytes n.value ++ putUvarint n.children.length
  if n.children.length = 0 then b
  else b ++ emitChildren (sortChildren n.children)

/-! ## Codec readers and the decoder (part_000 lines 51-119) -/

/-- Modelled from the spec: `codecReader.Bool` reads one byte and rejects any
value other than 0 or 1. -/
def readBool : List Nat → Except DecErr (Bool × List Nat)
  | [] => .error .unexpectedEOF
  | b :: rest =>
    if b = 0 then .ok (false, rest)
    else if b = 1 then .ok (true, rest)
    else .error .invalidBool

/-- Modelled from the spec: `codecReader.Key` reads the token length varint
and then that many token bytes. -/
def readKey (b : List Nat) : Except DecErr (Key × List Nat) := do
  let (n, b) ← readUvarint b
  let (ts, b) ← readN n b
  return (⟨ts⟩, b)

/-- Modelled from the spec: `codecReader.ID` reads the fixed 32-byte digest. -/
def readID (b : List Nat) : Except DecErr (List Nat × List Nat) := readN idLen b

/-- Modelled from the spec: `codecReader.MaybeBytes` reads the presence flag
and, when set, a length-prefixed byte string. -/
def readMaybeBytes (b : List Nat) : Except DecErr (Option (List Nat) × List Nat) := do
  let (hv, b) ← readBool b
  if hv then
    let (n, b) ← readUvarint b
    let (v, b) ← readN n b
    return (some v, b)
  else
    return (none, b)

/-- The child-decoding loop of `decodeDiskBranchNode` (part_000 lines 72-114):
reads `remaining` entries, enforcing per entry that the index is strictly
above the previous one (skipped for the first entry) and at most 255, both
violations reported as `errChildIndexTooLarge` by the single source check
`(i != 0 && index <= previousChild) || index > math.MaxUint8`. -/
def decodeChildren : Nat → Bool → Nat → List Nat →
    Except DecErr (List (Nat × diskChild) × List Nat)
  | 0, _, _, b => .ok ([], b)
  | remaining + 1, first, prev, b => do
    let (index, b) ← readUvarint b
    if (first = false ∧ index ≤ prev) ∨ 255 < index then throw .childIndexTooLarge
    let (ck, b) ← readKey b
    let (childID, b) ← readID b
    let (hv, b) ← readBool b
    let (offset, b) ← readUvarint b
    let (size, b) ← readUvarint b
    let (restChildren, b) ← decodeChildren remaining false index b
    return ((index, ⟨⟨ck, childID, hv⟩, ⟨fromU64 offset, fromU64 size⟩⟩) :: restChildren, b)

/-- Translation of `decodeDiskBranchNode` (part_000 lines 51-119): optional value, child
count (rejected above `BranchFactorLargest`), the child entries, and a final
trailing-byte check (`errExtraSpace`).  The Go version fills a caller-supplied
node; the decoded node is returned here instead. -/
def decodeDiskBranchNode (b : List Nat) : Except DecErr diskBranchNode := do
  let (value, b) ← readMaybeBytes b
  let (numChildren, b) ← readUvarint b
  if BranchFactorLargest < numChildren then throw .tooManyChildren
  let (children, b) ← decodeChildren numChildren true 0 b
  if b ≠ [] then throw .extraSpace
  return ⟨value, children⟩

/-! ## Size prediction (part_000 lines 122-139) -/

/-- Modelled from the spec: key size used by `childSize` — the varint length
prefix plus the token bytes. -/
def keySize (k : Key) : Nat := uintSize k.tokens.length + k.tokens.length

/-- Modelled from the spec: `childSize` — the encoded size of one child entry
beyond its disk address: index varint, compressed key, digest, has-value
flag.  Its signature (an index and the address-free `child`) cannot observe
the address, which `encodeDiskBranchNodeSize` budgets separately. -/
def childSize (index : Nat) (c : child) : Nat :=
  uintSize index + keySize c.compressedKey + idLen + boolLen

/-- Translation of `encodeDiskBranchNodeSize` (part_000 lines 122-139): child-count varint,
the value-presence flag, a fixed `diskAddressSize` budget per child, the
optional value, and each child's `childSize`. -/
def encodeDiskBranchNodeSize (n : diskBranchNode) : Nat :=
  uintSize n.children.length + boolLen + diskAddressSize * n.children.length +
    (match n.value with
     | none => 0
     | some v => uintSize v.length + v.length) +
    (n.children.map (fun p => childSize p.1 p.2.child)).sum

/-! ## Disk addresses on the wire (raw_disk.go lines 258-268) -/

/-- Translation of `diskAddress.bytes`: 8-byte big-endian offset then 8-byte big-endian
size. -/
def diskAddress.bytes (r : diskAddress) : List Nat :=
  putU64BE (toU64 r.offset) ++ putU64BE (toU64 r.size)

/-- Translation of `diskAddress.decode`: big-endian reads of the first and second 8-byte
words.  The Go version fills the receiver; the decoded address is returned. -/
def diskAddress.decode (b : List Nat) : diskAddress :=
  { offset := fromU64 (readU64BE (b.take 8)), size := fromU64 (readU64BE ((b.drop 8).take 8)) }

/-! ## Basic facts about the primitive readers and writers -/

theorem ok_bind {ε α β : Type} (x : α) (f : α → Except ε β) :
    (Except.ok x : Except ε α) >>= f = f x := rfl

theorem error_bind {ε α β : Type} (e : ε) (f : α → Except ε β) :
    (Except.error e : Except ε α) >>= f = .error e := rfl

theorem putUvarintAux_congr : ∀ f₁ f₂ x, x < f₁ → x < f₂ →
    putUvarintAux f₁ x = putUvarintAux f₂ x := by
  intro f₁
  induction f₁ with
  | zero => intro f₂ x h; omega
  | succ f₁ ih =>
    intro f₂ x h₁ h₂
    match f₂, h₂ with
    | f₂ + 1, h₂ =>
      simp only [putUvarintAux]
      split
      · rfl
      · rename_i hx
        have hd : x / 128 < x := Nat.div_lt_self (by omega) (by norm_num)
        rw [ih f₂ (x / 128) (by omega) (by omega)]

/-- Unfolding equation of the varint encoder, independent of the fuel. -/
theorem putUvarint_eq (x : Nat) :
    putUvarint x = if x < 128 then [x] else (x % 128 + 128) :: putUvarint (x / 128) := by
  by_cases hx : x < 128
  · simp [putUvarint, putUvarintAux, hx]
  · have hd : x / 128 < x := Nat.div_lt_self (by omega) (by norm_num)
    have h1 : putUvarint x = (x % 128 + 128) :: putUvarintAux x (x / 128) := by
      simp only [putUvarint, putUvarintAux, hx, if_false]
    rw [h1, if_neg hx, putUvarintAux_congr x (x / 128 + 1) (x / 128) (by omega) (by omega)]
    rfl

/-- Reading back a varint consumes exactly its encoding. -/
theorem readUvarint_putUvarint (x : Nat) :
    ∀ r, readUvarint (putUvarint x ++ r) = .ok (x, r) := by
  induction x using Nat.strong_induction_on with
  | _ x ih =>
    intro r
    rw [putUvarint_eq]
    by_cases hx : x < 128
    · simp [readUvarint, hx]
    · have hd : x / 128 < x := Nat.div_lt_self (by omega) (by norm_num)
      have hge : ¬(x % 128 + 128 < 128) := by omega
      simp only [hx, if_false, List.cons_append, readUvarint, hge, ih (x / 128) hd r]
      have hsum : x % 128 + 128 - 128 + 128 * (x / 128) = x := by omega
      rw [hsum]

theorem readN_append {l : List Nat} {n : Nat} (h : l.length = n) (r : List Nat) :
    readN n (l ++ r) = .ok (l, r) := by
  subst h
  simp [readN, List.take_left, List.drop_left]

theorem readBool_putBool (b : Bool) (r : List Nat) :
    readBool (putBool b ++ r) = .ok (b, r) := by
  cases b <;> simp [putBool, readBool]

theorem readKey_putKey (k : Key) (r : List Nat) :
    readKey (putKey k ++ r) = .ok (k, r) := by
  cases k with
  | mk ts =>
    simp [putKey, readKey, List.append_assoc, readUvarint_putUvarint,
      readN_append rfl, bind, Except.bind, pure, Except.pure]

theorem readID_append {l : List Nat} (h : l.length = 32) (r : List Nat) :
    readID (l ++ r) = .ok (l, r) := by
  simpa [readID, idLen] using readN_append h r

theorem readMaybeBytes_putMaybeBytes (v : Option (List Nat)) (r : List Nat) :
    readMaybeBytes (putMaybeBytes v ++ r) = .ok (v, r) := by
  cases v with
  | none =>
    simp [putMaybeBytes, readMaybeBytes, readBool_putBool, bind, Except.bind,
      pure, Except.pure]
  | some v =>
    simp [putMaybeBytes, readMaybeBytes, List.append_assoc, readBool_putBool,
      readUvarint_putUvarint, readN_append rfl, bind, Except.bind, pure, Except.pure]

theorem toU64_lt (i : Int) : toU64 i < 2 ^ 64 := by
  unfold toU64; omega

theorem fromU64_toU64 {i : Int} (h : int64Range i) : fromU64 (toU64 i) = i := by
  unfold int64Range at h
  unfold fromU64 toU64
  split <;> omega

theorem putU64BE_length (x : Nat) : (putU64BE x).length = 8 := rfl

theorem readU64BE_putU64BE {x : Nat} (h : x < 2 ^ 64) : readU64BE (putU64BE x) = x := by
  simp only [putU64BE, readU64BE, List.getD_cons_zero, List.getD_cons_succ]
  omega

/-- C10: `diskAddress.bytes` produces exactly 16 bytes, laid out as the
8-byte big-endian offset followed by the 8-byte big-endian size, and
`diskAddress.decode` recovers the address exactly. -/
theorem C10_diskAddress_bytes_roundtrip (a : diskAddress)
    (ho : int64Range a.offset) (hs : int64Range a.size) :
    (diskAddress.bytes a).length = 16 ∧
    diskAddress.bytes a = putU64BE (toU64 a.offset) ++ putU64BE (toU64 a.size) ∧
    diskAddress.decode (diskAddress.bytes a) = a := by
  refine ⟨by simp [diskAddress.bytes, putU64BE], rfl, ?_⟩
  have h1 : (diskAddress.bytes a).take 8 = putU64BE (toU64 a.offset) := by
    simp [diskAddress.bytes, putU64BE]
  have h2 : ((diskAddress.bytes a).drop 8).take 8 = putU64BE (toU64 a.size) := by
    simp [diskAddress.bytes, putU64BE]
  cases a with
  | mk o s =>
    simp only [diskAddress.decode, h1, h2]
    simp only [readU64BE_putU64BE (toU64_lt o), readU64BE_putU64BE (toU64_lt s)]
    simp [fromU64_toU64 ho, fromU64_toU64 hs]

/-- Witness for C10 at the concrete address offset 18, size 42. -/
theorem C10_witness :
    diskAddress.decode (diskAddress.bytes ⟨18, 42⟩) = ⟨18, 42⟩ :=
  (C10_diskAddress_bytes_roundtrip ⟨18, 42⟩
    (by unfold int64Range; decide) (by unfold int64Range; decide)).2.2

/-- The node the repository's own test `TestEncodeDiskBranchNode` builds: no
value, one child at index 0 with an empty compressed key, a 32-byte digest,
no value flag, and disk address offset 10, size 100. -/
def sizeDriftNode : diskBranchNode :=
  ⟨none, [(0, ⟨⟨⟨[]⟩, List.replicate 32 0, false⟩, ⟨10, 100⟩⟩)]⟩

set_option maxRecDepth 4000 in
/-- C5: the encoded length and the predicted size disagree.
`encodeDiskBranchNode` emits each child's disk address as two varints (2
bytes for offset 10 and size 100), while `encodeDiskBranchNodeSize` budgets
a fixed `diskAddressSize = 16` bytes per child, so on the test node the
encoder produces 39 bytes but the size function predicts 53. -/
theorem C5_size_encode_drift :
    (encodeDiskBranchNode sizeDriftNode).length ≠ encodeDiskBranchNodeSize sizeDriftNode ∧
    (encodeDiskBranchNode sizeDriftNode).length = 39 ∧
    encodeDiskBranchNodeSize sizeDriftNode = 53 := by
  decide

/-! ## The decoder on emitted child sequences -/

/-- The index-validity check of the child-decoding loop, folded over a key
sequence: the source rejects an entry when `(i != 0 && index <= previousChild)
|| index > math.MaxUint8`. -/
def childIndicesOK : Bool → Nat → List Nat → Bool
  | _, _, [] => true
  | first, prev, k :: ks =>
    if (first = false ∧ k ≤ prev) ∨ 255 < k then false else childIndicesOK false k ks

/-- Address round-trip through the unsigned varint wire form (the identity on
`int64`-range addresses). -/
def normAddr (a : diskAddress) : diskAddress :=
  ⟨fromU64 (toU64 a.offset), fromU64 (toU64 a.size)⟩

/-- Entry round-trip through the wire form. -/
def normEntry (p : Nat × diskChild) : Nat × diskChild :=
  (p.1, ⟨p.2.child, normAddr p.2.address⟩)

theorem emitChildren_nil : emitChildren [] = [] := rfl

theorem emitChildren_cons (p : Nat × diskChild) (ps : List (Nat × diskChild)) :
    emitChildren (p :: ps) = emitChild p ++ emitChildren ps := by
  simp [emitChildren]

/-- The behaviour of the child-decoding loop on a sequence of emitted child
entries followed by arbitrary trailing bytes: with each digest 32 bytes wide,
the loop either returns all the entries (addresses re-read through the varint
wire form) or fails with the index check, exactly according to
`childIndicesOK`. -/
theorem decodeChildren_emitChildren (ps : List (Nat × diskChild)) :
    ∀ (first : Bool) (prev : Nat) (rest : List Nat),
      (∀ p ∈ ps, p.2.child.id.length = 32) →
      decodeChildren ps.length first prev (emitChildren ps ++ rest) =
        if childIndicesOK first prev (ps.map Prod.fst)
        then .ok (ps.map normEntry, rest)
        else .error .childIndexTooLarge := by
  induction ps with
  | nil =>
    intro first prev rest _
    simp [emitChildren_nil, decodeChildren, childIndicesOK]
  | cons p ps ih =>
    intro first prev rest hid
    have hidp : p.2.child.id.length = 32 := hid p (List.mem_cons_self p ps)
    have hidps : ∀ q ∈ ps, q.2.child.id.length = 32 :=
      fun q hq => hid q (List.mem_cons_of_mem p hq)
    rw [emitChildren_cons]
    show decodeChildren (ps.length + 1) first prev _ = _
    simp only [decodeChildren, emitChild, List.append_assoc, readUvarint_putUvarint,
      bind, Except.bind]
    by_cases hc : (first = false ∧ p.1 ≤ prev) ∨ 255 < p.1
    · rw [if_pos hc]
      show Except.error DecErr.childIndexTooLarge =
        if childIndicesOK first prev ((p :: ps).map Prod.fst) = true then _ else _
      have : childIndicesOK first prev ((p :: ps).map Prod.fst) = false := by
        simp only [List.map_cons, childIndicesOK]
        rw [if_pos hc]
      rw [this]
      simp
    · rw [if_neg hc]
      simp only [readKey_putKey, ok_bind, readID_append hidp, readBool_putBool,
        readUvarint_putUvarint, ih false p.1 rest hidps]
      have hcons : childIndicesOK first prev ((p :: ps).map Prod.fst) =
          childIndicesOK false p.1 (ps.map Prod.fst) := by
        simp only [List.map_cons, childIndicesOK]
        rw [if_neg hc]
      rw [hcons]
      by_cases hok : childIndicesOK false p.1 (ps.map Prod.fst) = true
      · rw [if_pos hok, if_pos hok]
        simp [normEntry, normAddr, pure, Except.pure]
      · rw [if_neg hok, if_neg hok]
        rfl

theorem childIndicesOK_false_iff (ks : List Nat) : ∀ prev : Nat,
    childIndicesOK false prev ks = true ↔
      List.Chain' (· < ·) (prev :: ks) ∧ ∀ k ∈ ks, k ≤ 255 := by
  induction ks with
  | nil => intro prev; simp [childIndicesOK]
  | cons k ks ih =>
    intro prev
    show (if (false = false ∧ k ≤ prev) ∨ 255 < k then false
      else childIndicesOK false k ks) = true ↔ _
    by_cases hc : (false = false ∧ k ≤ prev) ∨ 255 < k
    · rw [if_pos hc]
      constructor
      · intro h; cases h
      · rintro ⟨hch, hb⟩
        have h1 : prev < k := (List.chain'_cons.mp hch).1
        have h2 : k ≤ 255 := hb k (List.mem_cons_self k ks)
        rcases hc with ⟨-, hle⟩ | hgt <;> omega
    · have h1 : prev < k := by
        rcases Nat.lt_or_ge prev k with h | h
        · exact h
        · exact absurd (Or.inl ⟨rfl, by omega⟩) hc
      have h2 : k ≤ 255 := by
        rcases Nat.lt_or_ge 255 k with h | h
        · exact absurd (Or.inr h) hc
        · exact h
      rw [if_neg hc, ih k]
      constructor
      · rintro ⟨hch, hb⟩
        refine ⟨List.chain'_cons.mpr ⟨h1, hch⟩, ?_⟩
        intro j hj
        rcases List.mem_cons.mp hj with rfl | hj'
        · exact h2
        · exact hb j hj'
      · rintro ⟨hch, hb⟩
        exact ⟨(List.chain'_cons.mp hch).2, fun j hj => hb j (List.mem_cons_of_mem k hj)⟩

theorem childIndicesOK_true_iff (ks : List Nat) (prev : Nat) :
    childIndicesOK true prev ks = true ↔
      List.Chain' (· < ·) ks ∧ ∀ k ∈ ks, k ≤ 255 := by
  cases ks with
  | nil => simp [childIndicesOK]
  | cons k ks =>
    show (if (true = false ∧ k ≤ prev) ∨ 255 < k then false
      else childIndicesOK false k ks) = true ↔ _
    by_cases hc : (true = false ∧ k ≤ prev) ∨ 255 < k
    · have h255 : 255 < k := by
        rcases hc with ⟨h, _⟩ | h
        · cases h
        · exact h
      rw [if_pos hc]
      constructor
      · intro h; cases h
      · rintro ⟨_, hb⟩
        have := hb k (List.mem_cons_self k ks)
        omega
    · have h2 : k ≤ 255 := by
        rcases Nat.lt_or_ge 255 k with h | h
        · exact absurd (Or.inr h) hc
        · exact h
      rw [if_neg hc, childIndicesOK_false_iff ks k]
      constructor
      · rintro ⟨hch, hb⟩
        refine ⟨hch, ?_⟩
        intro j hj
        rcases List.mem_cons.mp hj with rfl | hj'
        · exact h2
        · exact hb j hj'
      · rintro ⟨hch, hb⟩
        exact ⟨hch, fun j hj => hb j (List.mem_cons_of_mem k hj)⟩

/-- Full behaviour of `decodeDiskBranchNode` on a wire image assembled from a
value, a child count, the emitted child entries, and trailing bytes — the
checks fire in source order: the branch-factor bound, the per-entry index
check, then the trailing-data check. -/
theorem decodeDiskBranchNode_emitted (v : Option (List Nat))
    (ps : List (Nat × diskChild)) (rest : List Nat)
    (hid : ∀ p ∈ ps, p.2.child.id.length = 32) :
    decodeDiskBranchNode (putMaybeBytes v ++ putUvarint ps.length ++ emitChildren ps ++ rest) =
      if 256 < ps.length then .error .tooManyChildren
      else if childIndicesOK true 0 (ps.map Prod.fst) then
        (if rest = [] then .ok ⟨v, ps.map normEntry⟩ else .error .extraSpace)
      else .error .childIndexTooLarge := by
  simp only [decodeDiskBranchNode, List.append_assoc, readMaybeBytes_putMaybeBytes,
    readUvarint_putUvarint, bind, Except.bind, BranchFactorLargest]
  by_cases hbig : 256 < ps.length
  · rw [if_pos hbig, if_pos hbig]
  · rw [if_neg hbig, if_neg hbig]
    simp only [decodeChildren_emitChildren ps true 0 rest hid]
    by_cases hok : childIndicesOK true 0 (ps.map Prod.fst) = true
    · rw [if_pos hok, if_pos hok]
      simp only [pure, Except.pure]
      by_cases hrest : rest = []
      · subst hrest
        simp
      · rw [if_pos (show rest ≠ [] from hrest), if_neg hrest]
    · rw [if_neg hok, if_neg hok]
      rfl

/-! ## Round-trip and determinism of the node codec -/

/-- The branch on an empty child list in `encodeDiskBranchNode` is an early
return of the same bytes, so the encoder always equals the unconditional
concatenation. -/
theorem encodeDiskBranchNode_eq (n : diskBranchNode) :
    encodeDiskBranchNode n =
      putMaybeBytes n.value ++ putUvarint n.children.length ++
        emitChildren (sortChildren n.children) := by
  by_cases h : n.children.length = 0
  · have : n.children = [] := List.length_eq_zero.mp h
    simp [encodeDiskBranchNode, this, sortChildren, emitChildren_nil]
  · simp [encodeDiskBranchNode, h, List.append_assoc]

theorem sortChildren_perm (cs : List (Nat × diskChild)) : (sortChildren cs).Perm cs :=
  List.perm_insertionSort childKeyLE cs

theorem sortChildren_sorted (cs : List (Nat × diskChild)) :
    List.Pairwise childKeyLE (sortChildren cs) :=
  List.sorted_insertionSort childKeyLE cs

/-- In a list with pairwise-distinct keys, an entry is determined by its key. -/
theorem eq_of_mem_nodup_keys {l : List (Nat × diskChild)} (h : (l.map Prod.fst).Nodup)
    {a b : Nat × diskChild} (ha : a ∈ l) (hb : b ∈ l) (hk : a.1 = b.1) : a = b := by
  induction l with
  | nil => cases ha
  | cons x l ih =>
    simp only [List.map_cons, List.nodup_cons] at h
    rcases List.mem_cons.mp ha with rfl | ha' <;> rcases List.mem_cons.mp hb with rfl | hb'
    · rfl
    · exact absurd (hk ▸ List.mem_map_of_mem Prod.fst hb') h.1
    · exact absurd (hk ▸ List.mem_map_of_mem Prod.fst ha') h.1
    · exact ih h.2 ha' hb'

theorem length_le_of_nodup_lt {l : List Nat} (h : l.Nodup) (hb : ∀ k ∈ l, k < 256) :
    l.length ≤ 256 := by
  have h1 : l.toFinset.card = l.length := List.toFinset_card_of_nodup h
  have h2 : l.toFinset ⊆ Finset.range 256 := by
    intro k hk
    exact Finset.mem_range.mpr (hb k (List.mem_toFinset.mp hk))
  have h3 := Finset.card_le_card h2
  rw [h1, Finset.card_range] at h3
  exact h3

/-- Keys of the sorted child list are strictly ascending when pairwise
distinct. -/
theorem sortChildren_keys_chain {cs : List (Nat × diskChild)}
    (h : (cs.map Prod.fst).Nodup) :
    List.Chain' (· < ·) ((sortChildren cs).map Prod.fst) := by
  have hperm : ((sortChildren cs).map Prod.fst).Perm (cs.map Prod.fst) :=
    (sortChildren_perm cs).map Prod.fst
  have hnd : ((sortChildren cs).map Prod.fst).Nodup := (hperm.nodup_iff).mpr h
  have hle : List.Pairwise (· ≤ ·) ((sortChildren cs).map Prod.fst) := by
    rw [List.pairwise_map]
    exact sortChildren_sorted cs
  have hne : List.Pairwise (· ≠ ·) ((sortChildren cs).map Prod.fst) := hnd
  have hlt : List.Pairwise (· < ·) ((sortChildren cs).map Prod.fst) :=
    (hle.and hne).imp (fun hab => lt_of_le_of_ne hab.1 hab.2)
  exact List.chain'_iff_pairwise.mpr hlt

/-- C6: decoding the encoding of a valid node — pairwise-distinct child
indices fitting the byte-wide token range, 32-byte digests, non-negative
`int64` child addresses — succeeds and returns a node with the same value and
the same child set (the decoder materializes the children in ascending index
order, a permutation of the in-memory list). -/
theorem C6_decode_encode_roundtrip (n : diskBranchNode)
    (hnd : (n.children.map Prod.fst).Nodup)
    (hidx : ∀ p ∈ n.children, p.1 < 256)
    (hid : ∀ p ∈ n.children, p.2.child.id.length = 32)
    (haddr : ∀ p ∈ n.children, 0 ≤ p.2.address.offset ∧ p.2.address.offset < 2 ^ 63 ∧
      0 ≤ p.2.address.size ∧ p.2.address.size < 2 ^ 63) :
    ∃ m, decodeDiskBranchNode (encodeDiskBranchNode n) = .ok m ∧
      m.value = n.value ∧ m.children.Perm n.children := by
  have hperm : (sortChildren n.children).Perm n.children := sortChildren_perm n.children
  have hmem : ∀ p ∈ sortChildren n.children, p ∈ n.children := fun p hp => hperm.mem_iff.mp hp
  have hlen : (sortChildren n.children).length = n.children.length := hperm.length_eq
  have hid' : ∀ p ∈ sortChildren n.children, p.2.child.id.length = 32 :=
    fun p hp => hid p (hmem p hp)
  have hkeys : ∀ k ∈ (sortChildren n.children).map Prod.fst, k ≤ 255 := by
    intro k hk
    obtain ⟨p, hp, rfl⟩ := List.mem_map.mp hk
    have := hidx p (hmem p hp)
    omega
  have hchain := sortChildren_keys_chain hnd
  have hcount : ¬256 < (sortChildren n.children).length := by
    rw [hlen]
    have : (n.children.map Prod.fst).length ≤ 256 := by
      refine length_le_of_nodup_lt hnd ?_
      intro k hk
      obtain ⟨p, hp, rfl⟩ := List.mem_map.mp hk
      exact hidx p hp
    simp only [List.length_map] at this
    omega
  have hok : childIndicesOK true 0 ((sortChildren n.children).map Prod.fst) = true :=
    (childIndicesOK_true_iff _ 0).mpr ⟨hchain, hkeys⟩
  have hnorm : (sortChildren n.children).map normEntry = sortChildren n.children := by
    have : ∀ p ∈ sortChildren n.children, normEntry p = id p := by
      intro p hp
      obtain ⟨ho1, ho2, hs1, hs2⟩ := haddr p (hmem p hp)
      have hoeq : fromU64 (toU64 p.2.address.offset) = p.2.address.offset :=
        fromU64_toU64 ⟨by omega, ho2⟩
      have hseq : fromU64 (toU64 p.2.address.size) = p.2.address.size :=
        fromU64_toU64 ⟨by omega, hs2⟩
      simp [normEntry, normAddr, hoeq, hseq]
    rw [List.map_congr_left this, List.map_id]
  refine ⟨⟨n.value, sortChildren n.children⟩, ?_, rfl, hperm⟩
  rw [encodeDiskBranchNode_eq, ← hlen, ← List.append_nil
    (putMaybeBytes n.value ++ putUvarint (sortChildren n.children).length ++
      emitChildren (sortChildren n.children))]
  rw [List.append_assoc, List.append_assoc]
  rw [show putMaybeBytes n.value ++ (putUvarint (sortChildren n.children).length ++
    (emitChildren (sortChildren n.children) ++ [])) = putMaybeBytes n.value ++
    putUvarint (sortChildren n.children).length ++ emitChildren (sortChildren n.children) ++ []
    by simp [List.append_assoc]]
  rw [decodeDiskBranchNode_emitted n.value (sortChildren n.children) [] hid']
  simp [hcount, hok, hnorm]

/-- A concrete valid node with two children inserted out of index order. -/
def rtNode : diskBranchNode :=
  ⟨some [1, 2],
   [(5, ⟨⟨⟨[7]⟩, List.replicate 32 1, true⟩, ⟨20, 3⟩⟩),
    (3, ⟨⟨⟨[]⟩, List.replicate 32 2, false⟩, ⟨50, 4⟩⟩)]⟩

set_option maxRecDepth 8000 in
/-- Witness for C6 on `rtNode`. -/
theorem C6_witness :
    ∃ m, decodeDiskBranchNode (encodeDiskBranchNode rtNode) = .ok m ∧
      m.value = rtNode.value ∧ m.children.Perm rtNode.children :=
  C6_decode_encode_roundtrip rtNode (by decide) (by decide) (by decide) (by decide)

/-- C9: encoding depends only on the logical node — the value and the child
set — not on the order children were inserted: children are materialized in
sorted ascending index order before emission. -/
theorem C9_encode_deterministic (n₁ n₂ : diskBranchNode)
    (hv : n₁.value = n₂.value) (hp : n₁.children.Perm n₂.children)
    (hnd : (n₁.children.map Prod.fst).Nodup) :
    encodeDiskBranchNode n₁ = encodeDiskBranchNode n₂ := by
  have hsorteq : sortChildren n₁.children = sortChildren n₂.children := by
    have hperm : (sortChildren n₁.children).Perm (sortChildren n₂.children) :=
      ((sortChildren_perm n₁.children).trans hp).trans (sortChildren_perm n₂.children).symm
    refine List.Perm.eq_of_sorted ?_ (sortChildren_sorted n₁.children)
      (sortChildren_sorted n₂.children) hperm
    intro a b ha hb hab hba
    have hk : a.1 = b.1 := Nat.le_antisymm hab hba
    have ha' : a ∈ n₁.children := (sortChildren_perm n₁.children).mem_iff.mp ha
    have hb' : b ∈ n₁.children :=
      hp.mem_iff.mpr ((sortChildren_perm n₂.children).mem_iff.mp hb)
    exact eq_of_mem_nodup_keys hnd ha' hb' hk
  rw [encodeDiskBranchNode_eq, encodeDiskBranchNode_eq, hv, hp.length_eq, hsorteq]

/-- Witness for C9: the same logical node with children inserted in the two
possible orders encodes to byte-identical output. -/
theorem C9_witness :
    encodeDiskBranchNode
        ⟨some [9], [(1, ⟨⟨⟨[]⟩, List.replicate 32 4, false⟩, ⟨60, 5⟩⟩),
                    (4, ⟨⟨⟨[2]⟩, List.replicate 32 6, true⟩, ⟨70, 6⟩⟩)]⟩ =
      encodeDiskBranchNode
        ⟨some [9], [(4, ⟨⟨⟨[2]⟩, List.replicate 32 6, true⟩, ⟨70, 6⟩⟩),
                    (1, ⟨⟨⟨[]⟩, List.replicate 32 4, false⟩, ⟨60, 5⟩⟩)]⟩ :=
  C9_encode_deterministic _ _ rfl (List.Perm.swap _ _ _) (by decide)

/-! ## Truncation sensitivity of the decoder -/

theorem take_append_lt {l₁ l₂ : List Nat} {k : Nat} (h : k ≤ l₁.length) :
    (l₁ ++ l₂).take k = l₁.take k := by
  rw [List.take_append_eq_append_take, Nat.sub_eq_zero_of_le h, List.take_zero, List.append_nil]

theorem take_append_ge {l₁ l₂ : List Nat} {k : Nat} (h : l₁.length ≤ k) :
    (l₁ ++ l₂).take k = l₁ ++ l₂.take (k - l₁.length) := by
  rw [List.take_append_eq_append_take, List.take_of_length_le h]

theorem putUvarint_length_pos (x : Nat) : 0 < (putUvarint x).length := by
  rw [putUvarint_eq]
  by_cases hx : x < 128 <;> simp [hx]

/-- A strict prefix of a varint encoding ends mid-continuation, so reading it
fails with `unexpectedEOF`. -/
theorem readUvarint_take (x : Nat) : ∀ k, k < (putUvarint x).length →
    readUvarint ((putUvarint x).take k) = .error .unexpectedEOF := by
  induction x using Nat.strong_induction_on with
  | _ x ih =>
    intro k hk
    rw [putUvarint_eq] at hk ⊢
    by_cases hx : x < 128
    · simp only [hx, if_true] at hk ⊢
      have hk0 : k = 0 := by simpa using hk
      subst hk0
      simp [readUvarint]
    · have hd : x / 128 < x := Nat.div_lt_self (by omega) (by norm_num)
      simp only [hx, if_false] at hk ⊢
      cases k with
      | zero => simp [readUvarint]
      | succ k =>
        have hlen : k < (putUvarint (x / 128)).length := by
          simp only [List.length_cons] at hk
          omega
        have hge : ¬(x % 128 + 128 < 128) := by omega
        simp only [List.take_succ_cons, readUvarint, hge, if_false, ih (x / 128) hd k hlen]

theorem readN_short {n : Nat} {l : List Nat} (h : l.length < n) :
    readN n l = .error .unexpectedEOF := by
  simp [readN, h]

/-- A strict prefix of an encoded key fails with `unexpectedEOF`. -/
theorem readKey_take (ky : Key) : ∀ k, k < (putKey ky).length →
    readKey ((putKey ky).take k) = .error .unexpectedEOF := by
  intro k hk
  rw [putKey] at hk ⊢
  rcases Nat.lt_or_ge k (putUvarint ky.tokens.length).length with hlt | hge
  · rw [take_append_lt (Nat.le_of_lt hlt)]
    simp [readKey, readUvarint_take ky.tokens.length k hlt, bind, Except.bind]
  · rw [take_append_ge hge]
    have hshort : (ky.tokens.take (k - (putUvarint ky.tokens.length).length)).length <
        ky.tokens.length := by
      simp only [List.length_append] at hk
      simp only [List.length_take]
      omega
    simp [readKey, readUvarint_putUvarint, readN_short hshort, bind, Except.bind]

/-- A strict prefix of an encoded optional value fails with `unexpectedEOF`. -/
theorem readMaybeBytes_take (v : Option (List Nat)) : ∀ k, k < (putMaybeBytes v).length →
    readMaybeBytes ((putMaybeBytes v).take k) = .error .unexpectedEOF := by
  intro k hk
  cases v with
  | none =>
    have hk0 : k = 0 := by simpa [putMaybeBytes, putBool] using hk
    subst hk0
    simp [readMaybeBytes, readBool, bind, Except.bind]
  | some v =>
    have hsome : putMaybeBytes (some v) = 1 :: (putUvarint v.length ++ v) := by
      simp [putMaybeBytes, putBool]
    rw [hsome] at hk ⊢
    cases k with
    | zero => simp [readMaybeBytes, readBool, bind, Except.bind]
    | succ k =>
      simp only [List.take_succ_cons, List.length_cons, List.length_append,
        Nat.succ_lt_succ_iff] at hk ⊢
      rcases Nat.lt_or_ge k (putUvarint v.length).length with hlt | hge
      · rw [take_append_lt (Nat.le_of_lt hlt)]
        simp [readMaybeBytes, readBool, readUvarint_take v.length k hlt, bind, Except.bind]
      · rw [take_append_ge hge]
        have hshort : (v.take (k - (putUvarint v.length).length)).length < v.length := by
          simp only [List.length_take]
          omega
        simp [readMaybeBytes, readBool, readUvarint_putUvarint, readN_short hshort,
          bind, Except.bind]

theorem putBool_length (b : Bool) : (putBool b).length = 1 := by
  cases b <;> rfl

/-- A strict prefix of a well-formed emitted child sequence fails the
child-decoding loop with `unexpectedEOF`: the truncation point lands inside
some varint or fixed-width field, all fields before it parse as in the full
input, and the cut field reports end of input. -/
theorem decodeChildren_take (ps : List (Nat × diskChild)) :
    ∀ (first : Bool) (prev : Nat),
      childIndicesOK first prev (ps.map Prod.fst) = true →
      (∀ p ∈ ps, p.2.child.id.length = 32) →
      ∀ k, k < (emitChildren ps).length →
        decodeChildren ps.length first prev ((emitChildren ps).take k) =
          .error .unexpectedEOF := by
  induction ps with
  | nil =>
    intro first prev _ _ k hk
    simp [emitChildren_nil] at hk
  | cons p ps ih =>
    intro first prev hciOK hid k hk
    have hidp : p.2.child.id.length = 32 := hid p (List.mem_cons_self p ps)
    have hidps : ∀ q ∈ ps, q.2.child.id.length = 32 :=
      fun q hq => hid q (List.mem_cons_of_mem p hq)
    have hcheck : ¬((first = false ∧ p.1 ≤ prev) ∨ 255 < p.1) := by
      intro hc
      have hfalse : childIndicesOK first prev ((p :: ps).map Prod.fst) = false := by
        simp only [List.map_cons, childIndicesOK]
        rw [if_pos hc]
      rw [hciOK] at hfalse
      cases hfalse
    have hciOK' : childIndicesOK false p.1 (ps.map Prod.fst) = true := by
      have hstep : childIndicesOK first prev ((p :: ps).map Prod.fst) =
          childIndicesOK false p.1 (ps.map Prod.fst) := by
        simp only [List.map_cons, childIndicesOK]
        rw [if_neg hcheck]
      rw [← hstep]
      exact hciOK
    have hb1 : (putBool p.2.child.hasValue).length = 1 := putBool_length _
    rw [emitChildren_cons] at hk ⊢
    simp only [emitChild, List.append_assoc] at hk ⊢
    simp only [List.length_append] at hk
    show decodeChildren (ps.length + 1) first prev _ = _
    simp only [decodeChildren, bind, Except.bind]
    rcases Nat.lt_or_ge k (putUvarint p.1).length with h1 | h1
    · simp only [take_append_lt (Nat.le_of_lt h1), readUvarint_take p.1 k h1]
    · simp only [take_append_ge h1, readUvarint_putUvarint, if_neg hcheck, pure, Except.pure]
      rcases Nat.lt_or_ge (k - (putUvarint p.1).length)
        (putKey p.2.child.compressedKey).length with h2 | h2
      · simp only [take_append_lt (Nat.le_of_lt h2), readKey_take _ _ h2]
      · simp only [take_append_ge h2, readKey_putKey]
        rcases Nat.lt_or_ge (k - (putUvarint p.1).length -
          (putKey p.2.child.compressedKey).length) p.2.child.id.length with h3 | h3
        · simp only [take_append_lt (Nat.le_of_lt h3)]
          have hshort : ((p.2.child.id.take (k - (putUvarint p.1).length -
              (putKey p.2.child.compressedKey).length)).length) < 32 := by
            simp only [List.length_take]
            omega
          simp only [readID, idLen, readN_short hshort]
        · simp only [take_append_ge h3, readID_append hidp]
          rcases Nat.lt_or_ge (k - (putUvarint p.1).length -
            (putKey p.2.child.compressedKey).length - p.2.child.id.length)
            (putBool p.2.child.hasValue).length with h4 | h4
          · have hk30 : k - (putUvarint p.1).length -
                (putKey p.2.child.compressedKey).length - p.2.child.id.length = 0 := by
              omega
            simp only [take_append_lt (Nat.le_of_lt h4), hk30, List.take_zero]
            cases p.2.child.hasValue <;> simp [putBool, readBool]
          · simp only [take_append_ge h4, readBool_putBool]
            rcases Nat.lt_or_ge (k - (putUvarint p.1).length -
              (putKey p.2.child.compressedKey).length - p.2.child.id.length -
              (putBool p.2.child.hasValue).length)
              (putUvarint (toU64 p.2.address.offset)).length with h5 | h5
            · simp only [take_append_lt (Nat.le_of_lt h5), readUvarint_take _ _ h5]
            · simp only [take_append_ge h5, readUvarint_putUvarint]
              rcases Nat.lt_or_ge (k - (putUvarint p.1).length -
                (putKey p.2.child.compressedKey).length - p.2.child.id.length -
                (putBool p.2.child.hasValue).length -
                (putUvarint (toU64 p.2.address.offset)).length)
                (putUvarint (toU64 p.2.address.size)).length with h6 | h6
              · simp only [take_append_lt (Nat.le_of_lt h6), readUvarint_take _ _ h6]
              · simp only [take_append_ge h6, readUvarint_putUvarint]
                have hbound : k - (putUvarint p.1).length -
                    (putKey p.2.child.compressedKey).length - p.2.child.id.length -
                    (putBool p.2.child.hasValue).length -
                    (putUvarint (toU64 p.2.address.offset)).length -
                    (putUvarint (toU64 p.2.address.size)).length <
                    (emitChildren ps).length := by
                  omega
                simp only [ih false p.1 hciOK' hidps _ hbound]


/-- A strict prefix of a full well-formed node encoding fails
`decodeDiskBranchNode` with `unexpectedEOF`. -/
theorem decodeDiskBranchNode_take (v : Option (List Nat)) (ps : List (Nat × diskChild))
    (hcnt : ¬256 < ps.length)
    (hciOK : childIndicesOK true 0 (ps.map Prod.fst) = true)
    (hid : ∀ p ∈ ps, p.2.child.id.length = 32) :
    ∀ k, k < (putMaybeBytes v ++ putUvarint ps.length ++ emitChildren ps).length →
      decodeDiskBranchNode
        ((putMaybeBytes v ++ putUvarint ps.length ++ emitChildren ps).take k) =
        .error .unexpectedEOF := by
  intro k hk
  simp only [List.append_assoc] at hk ⊢
  simp only [List.length_append] at hk
  simp only [decodeDiskBranchNode, bind, Except.bind, BranchFactorLargest]
  rcases Nat.lt_or_ge k (putMaybeBytes v).length with h1 | h1
  · simp only [take_append_lt (Nat.le_of_lt h1), readMaybeBytes_take v k h1]
  · simp only [take_append_ge h1, readMaybeBytes_putMaybeBytes]
    rcases Nat.lt_or_ge (k - (putMaybeBytes v).length) (putUvarint ps.length).length with h2 | h2
    · simp only [take_append_lt (Nat.le_of_lt h2), readUvarint_take _ _ h2]
    · simp only [take_append_ge h2, readUvarint_putUvarint, if_neg hcnt, pure, Except.pure]
      have hbound : k - (putMaybeBytes v).length - (putUvarint ps.length).length <
          (emitChildren ps).length := by
        omega
      simp only [decodeChildren_take ps true 0 hciOK hid _ hbound]

/-- C7: `decodeDiskBranchNode` fails with a `MalformedEncoding`-class error
exactly on the structurally invalid inputs of the wire grammar, and succeeds
on well-formed ones.  First conjunct: over every byte string assembled from a
value, a child count, emitted child entries (32-byte digests) and trailing
bytes, decoding returns `errTooManyChildren` when the count exceeds the
largest branch factor, `errChildIndexTooLarge` when the emitted indices are
not strictly increasing (covering duplicates and out-of-order corruption) or
an index exceeds 255, `errExtraSpace` when trailing bytes remain, and
otherwise succeeds with the declared node.  Second conjunct: truncating a
well-formed encoding at any strict prefix fails with `unexpectedEOF`. -/
theorem C7_decode_malformed_errors :
    (∀ (v : Option (List Nat)) (ps : List (Nat × diskChild)) (rest : List Nat),
      (∀ p ∈ ps, p.2.child.id.length = 32) →
      decodeDiskBranchNode (putMaybeBytes v ++ putUvarint ps.length ++ emitChildren ps ++ rest) =
        if 256 < ps.length then .error .tooManyChildren
        else if List.Chain' (· < ·) (ps.map Prod.fst) ∧ ∀ j ∈ ps.map Prod.fst, j ≤ 255 then
          (if rest = [] then .ok ⟨v, ps.map normEntry⟩ else .error .extraSpace)
        else .error .childIndexTooLarge) ∧
    (∀ (v : Option (List Nat)) (ps : List (Nat × diskChild)),
      (∀ p ∈ ps, p.2.child.id.length = 32) → ¬256 < ps.length →
      List.Chain' (· < ·) (ps.map Prod.fst) → (∀ j ∈ ps.map Prod.fst, j ≤ 255) →
      ∀ k, k < (putMaybeBytes v ++ putUvarint ps.length ++ emitChildren ps).length →
        decodeDiskBranchNode
          ((putMaybeBytes v ++ putUvarint ps.length ++ emitChildren ps).take k) =
          .error .unexpectedEOF) := by
  constructor
  · intro v ps rest hid
    rw [decodeDiskBranchNode_emitted v ps rest hid]
    by_cases hbig : 256 < ps.length
    · rw [if_pos hbig, if_pos hbig]
    · rw [if_neg hbig, if_neg hbig]
      by_cases hcond : List.Chain' (· < ·) (ps.map Prod.fst) ∧ ∀ j ∈ ps.map Prod.fst, j ≤ 255
      · rw [if_pos ((childIndicesOK_true_iff _ 0).mpr hcond), if_pos hcond]
      · rw [if_neg (fun h => hcond ((childIndicesOK_true_iff _ 0).mp h)), if_neg hcond]
  · intro v ps hid hcnt hchain hbounds k hk
    exact decodeDiskBranchNode_take v ps hcnt
      ((childIndicesOK_true_iff _ 0).mpr ⟨hchain, hbounds⟩) hid k hk

/-- A child entry used in the C7 witness. -/
def dupChild : diskChild := ⟨⟨⟨[]⟩, List.replicate 32 3, false⟩, ⟨5, 6⟩⟩

set_option maxRecDepth 8000 in
/-- Witness for C7: a sequence with a duplicated child index 3 decodes to the
`errChildIndexTooLarge` malformed-encoding error. -/
theorem C7_witness :
    decodeDiskBranchNode (putMaybeBytes none ++
        putUvarint ([(3, dupChild), (3, dupChild)] : List (Nat × diskChild)).length ++
        emitChildren [(3, dupChild), (3, dupChild)] ++ []) =
      .error .childIndexTooLarge := by
  rw [C7_decode_malformed_errors.1 none [(3, dupChild), (3, dupChild)] [] (by decide)]
  have hnc : ¬(List.Chain' (· < ·)
      (([(3, dupChild), (3, dupChild)] : List (Nat × diskChild)).map Prod.fst) ∧
      ∀ j ∈ (([(3, dupChild), (3, dupChild)] : List (Nat × diskChild)).map Prod.fst),
        j ≤ 255) := by
    simp [List.chain'_cons]
  rw [if_neg (by decide :
    ¬256 < ([(3, dupChild), (3, dupChild)] : List (Nat × diskChild)).length), if_neg hnc]

/-! ## File model and point lookup (rawDisk.getNode) -/

/-- Errors of the read path: underlying I/O failures, malformed node bytes,
and the traversal's `ErrFailedToFindNode`. -/
inductive GetErr where
  | ioError
  | malformed
  | failedToFindNode
deriving DecidableEq

/-- The backing file as a byte sequence (offset 0 is the shutdown marker,
bytes [1,17) the root address slot, 18 onwards the node store). -/
structure FileState where
  content : List Nat
deriving DecidableEq

/-- Translation of `rawDisk.readNodeFromDisk` (raw_disk.go lines 507-522): read
`address.size` bytes at `address.offset` and decode them; a read beyond the
end of the file (or a negative field, where Go would fail in `make`/`ReadAt`)
is an I/O error, undecodable bytes a malformed-encoding error. -/
def readNodeFromDisk (f : FileState) (a : diskAddress) : Except GetErr diskBranchNode :=
  if 0 ≤ a.offset ∧ 0 ≤ a.size ∧ a.offset.toNat + a.size.toNat ≤ f.content.length then
    match decodeDiskBranchNode ((f.content.drop a.offset.toNat).take a.size.toNat) with
    | .ok dbn => .ok dbn
    | .error _ => .error .malformed
  else .error .ioError

/-- Constant `rootKeyDiskAddressOffset` (raw_disk.go line 241). -/
def rootKeyDiskAddressOffset : Nat := 1

/-- The root-address read at the head of `rawDisk.getNode` (lines 449-456):
16 bytes at offset 1, decoded with `diskAddress.decode`; fails when the file
is shorter than the header. -/
def getRootAddress (f : FileState) : Except GetErr diskAddress :=
  if rootKeyDiskAddressOffset + 16 ≤ f.content.length then
    .ok (diskAddress.decode ((f.content.drop rootKeyDiskAddressOffset).take 16))
  else .error .ioError

/-- The in-memory node produced by a lookup (`node`/`dbNode` upstream): the
full key threaded through the traversal, the value, and the address-free
child entries. -/
structure node where
  key : Key
  value : Option (List Nat)
  children : List (Nat × child)
deriving DecidableEq

/-- Translation of `convertDiskBranchNodeToNode` (raw_disk.go lines 491-505): keep the value,
strip each child entry to its address-free part, and attach the key.  The
`setValueDigest` call through the pluggable hasher is out of scope (spec §1:
the hashing capability is never defined here). -/
def convertDiskBranchNodeToNode (key : Key) (dbn : diskBranchNode) : node :=
  ⟨key, dbn.value, dbn.children.map (fun p => (p.1, p.2.child))⟩

/-- Modelled from the spec: `Key.Token` — the token of `k` at position `i`
(in range at every use below). -/
def keyToken (k : Key) (i : Nat) : Nat := k.tokens.getD i 0

/-- Modelled from the spec: `Key.iteratedHasPrefix` — the compressed key
matches the key\'s subsequent tokens starting at `offset`, "checked over the
compressed-key\'s declared length"; false when that length overruns the key. -/
def iteratedHasPrefix (k : Key) (ck : Key) (offset : Nat) : Bool :=
  decide (offset + ck.tokens.length ≤ k.tokens.length) &&
    decide ((k.tokens.drop offset).take ck.tokens.length = ck.tokens)

/-- The traversal loop of `rawDisk.getNode` (raw_disk.go lines 470-486), at
token granularity (`tokenSize` = one token).  `currentNodeKey` is tracked by
its length `matched`; the advance `key.Take(matched + tokenSize + ck.length)`
caps at the key\'s length, as the upstream `Take` returns the key unchanged
when asked for more than it holds. -/
def getNodeLoop (f : FileState) (key : Key) (current : diskBranchNode) (matched : Nat) :
    Except GetErr node :=
  if h : matched < key.tokens.length then
    match current.children.lookup (keyToken key matched) with
    | none => .error .failedToFindNode
    | some entry =>
      if iteratedHasPrefix key entry.child.compressedKey (matched + 1) then
        match readNodeFromDisk f entry.address with
        | .error e => .error e
        | .ok next =>
          getNodeLoop f key next
            (min (matched + 1 + entry.child.compressedKey.tokens.length) key.tokens.length)
      else .error .failedToFindNode
  else .ok (convertDiskBranchNodeToNode key current)
termination_by key.tokens.length - matched
decreasing_by
  simp_wf
  omega

/-- Translation of `rawDisk.getNode` (raw_disk.go lines 446-489): read the root address from
the header, decode the root node, and walk the key from the root (the unused
`hasValue` parameter of the source is omitted). -/
def getNode (f : FileState) (key : Key) : Except GetErr node := do
  let rootAddr ← getRootAddress f
  let root ← readNodeFromDisk f rootAddr
  getNodeLoop f key root 0

/-- Modelled from the spec: the traversal loop exactly as §4.3 words it —
terminate successfully precisely when `matchedLength` equals the key length;
otherwise compute the token at `matchedLength`, require a child entry whose
compressed key matches the subsequent tokens (else `NodeNotFound`), descend
at the child\'s stored disk address, and advance `matchedLength` by
`tokenWidth + compressedKey.length`, uncapped. -/
def getNodeSpecLoop (f : FileState) (key : Key) (current : diskBranchNode) (matched : Nat) :
    Except GetErr node :=
  if matched = key.tokens.length then .ok (convertDiskBranchNodeToNode key current)
  else if h : matched < key.tokens.length then
    match current.children.lookup (keyToken key matched) with
    | none => .error .failedToFindNode
    | some entry =>
      if iteratedHasPrefix key entry.child.compressedKey (matched + 1) then
        match readNodeFromDisk f entry.address with
        | .error e => .error e
        | .ok next =>
          getNodeSpecLoop f key next (matched + 1 + entry.child.compressedKey.tokens.length)
      else .error .failedToFindNode
  else .error .failedToFindNode
termination_by key.tokens.length - matched
decreasing_by
  simp_wf
  omega

/-- Modelled from the spec: the whole §4.3 lookup — start at the root
address, decode the root, walk with `matchedLength = 0`. -/
def getNodeSpec (f : FileState) (key : Key) : Except GetErr node := do
  let rootAddr ← getRootAddress f
  let root ← readNodeFromDisk f rootAddr
  getNodeSpecLoop f key root 0

theorem iteratedHasPrefix_le {key ck : Key} {offset : Nat}
    (h : iteratedHasPrefix key ck offset = true) :
    offset + ck.tokens.length ≤ key.tokens.length := by
  have h1 := (Bool.and_eq_true _ _).mp h
  exact of_decide_eq_true h1.1

/-- From any reachable state (`matched` within the key), the source loop and
the spec loop agree: the source\'s capped advance never actually caps, because
the compressed-key check bounds the advance by the key length. -/
theorem getNodeLoop_eq_specLoop (f : FileState) (key : Key) :
    ∀ (d : Nat) (current : diskBranchNode) (matched : Nat),
      matched ≤ key.tokens.length → key.tokens.length - matched = d →
      getNodeLoop f key current matched = getNodeSpecLoop f key current matched := by
  intro d
  induction d using Nat.strong_induction_on with
  | _ d ih =>
    intro current matched hle hd
    by_cases heq : matched = key.tokens.length
    · rw [getNodeLoop.eq_def, getNodeSpecLoop.eq_def, dif_neg (by omega), if_pos heq]
    · have hlt : matched < key.tokens.length := by omega
      rw [getNodeLoop.eq_def, getNodeSpecLoop.eq_def, dif_pos hlt, if_neg heq, dif_pos hlt]
      split
      · rfl
      · rename_i entry hlook
        by_cases hpfx : iteratedHasPrefix key entry.child.compressedKey (matched + 1) = true
        · rw [if_pos hpfx, if_pos hpfx]
          split
          · rfl
          · rename_i next hread
            have hbound : matched + 1 + entry.child.compressedKey.tokens.length ≤
                key.tokens.length := iteratedHasPrefix_le hpfx
            have hmin : min (matched + 1 + entry.child.compressedKey.tokens.length)
                key.tokens.length = matched + 1 + entry.child.compressedKey.tokens.length :=
              Nat.min_eq_left hbound
            rw [hmin]
            exact ih (key.tokens.length - (matched + 1 + entry.child.compressedKey.tokens.length))
              (by omega) next _ hbound rfl
        · rw [if_neg hpfx, if_neg hpfx]

/-- A successful walk returns the node rebuilt around the full search key. -/
theorem getNodeLoop_ok_key (f : FileState) (key : Key) :
    ∀ (d : Nat) (current : diskBranchNode) (matched : Nat),
      key.tokens.length - matched = d →
      ∀ n : node, getNodeLoop f key current matched = .ok n → n.key = key := by
  intro d
  induction d using Nat.strong_induction_on with
  | _ d ih =>
    intro current matched hd n hn
    rw [getNodeLoop.eq_def] at hn
    by_cases hlt : matched < key.tokens.length
    · rw [dif_pos hlt] at hn
      split at hn
      · cases hn
      · rename_i entry hlook
        by_cases hpfx : iteratedHasPrefix key entry.child.compressedKey (matched + 1) = true
        · rw [if_pos hpfx] at hn
          split at hn
          · cases hn
          · rename_i next hread
            have hbound : matched + 1 + entry.child.compressedKey.tokens.length ≤
                key.tokens.length := iteratedHasPrefix_le hpfx
            have hmin : min (matched + 1 + entry.child.compressedKey.tokens.length)
                key.tokens.length = matched + 1 + entry.child.compressedKey.tokens.length :=
              Nat.min_eq_left hbound
            rw [hmin] at hn
            exact ih (key.tokens.length - (matched + 1 + entry.child.compressedKey.tokens.length))
              (by omega) next _ rfl n hn
        · rw [if_neg hpfx] at hn; cases hn
    · rw [dif_neg hlt] at hn
      cases hn
      rfl

/-- C8: `getNode` walks from the stored root exactly as the spec describes —
it equals the lookup written from §4.3\'s words (fail with the not-found error
on a missing child entry or a compressed-key mismatch, descend through the
child\'s stored disk address, succeed exactly when the matched length reaches
the key\'s length) — and any node it returns carries the full search key. -/
theorem C8_getNode_traversal :
    (∀ (f : FileState) (key : Key), getNode f key = getNodeSpec f key) ∧
    (∀ (f : FileState) (key : Key) (n : node), getNode f key = .ok n → n.key = key) := by
  constructor
  · intro f key
    unfold getNode getNodeSpec
    cases hroot : getRootAddress f with
    | error e => rfl
    | ok a =>
      simp only [bind, Except.bind]
      cases hread : readNodeFromDisk f a with
      | error e => rfl
      | ok root =>
        exact getNodeLoop_eq_specLoop f key (key.tokens.length - 0) root 0
          (Nat.zero_le _) rfl
  · intro f key n hn
    unfold getNode at hn
    simp only [bind, Except.bind] at hn
    cases hroot : getRootAddress f with
    | error e => rw [hroot] at hn; cases hn
    | ok a =>
      simp only [hroot] at hn
      cases hread : readNodeFromDisk f a with
      | error e => simp only [hread] at hn; cases hn
      | ok root =>
        simp only [hread] at hn
        exact getNodeLoop_ok_key f key (key.tokens.length - 0) root 0 rfl n hn

/-- A four-node-free single-leaf store: shutdown byte, root address pointing
at offset 18, size 4, one padding byte, then the encoded root
`{value: [7], children: {}}`. -/
def lookupFile : FileState :=
  ⟨0 :: (diskAddress.bytes ⟨18, 4⟩ ++ (0 :: [1, 1, 7, 0]))⟩

set_option maxRecDepth 8000 in
/-- Witness for C8: looking up the empty key in `lookupFile` succeeds and the
returned node carries the searched key. -/
theorem C8_witness : (node.key ⟨⟨[]⟩, some [7], []⟩) = ⟨[]⟩ :=
  C8_getNode_traversal.2 lookupFile ⟨[]⟩ ⟨⟨[]⟩, some [7], []⟩ (by
    unfold getNode
    rw [show getRootAddress lookupFile = .ok ⟨18, 4⟩ from by decide]
    show getNodeLoop lookupFile ⟨[]⟩ _ 0 = _
    rw [getNodeLoop.eq_def]
    norm_num
    rfl)

/-! ## Batch writer (rawDisk.writeChanges, raw_disk.go lines 341-440) -/

/-- The post-mutation image of a changed node presented by the change batch
(`changeNode.after`): its value and its in-memory children, which carry no
disk addresses. -/
structure changeNodeData where
  value : Option (List Nat)
  children : List (Nat × child)
deriving DecidableEq

/-- One record of the change batch (`changes.nodes` maps a trie key to a
change; only its `after` side is read by `writeChanges`). -/
structure changeEntry where
  after : changeNodeData
deriving DecidableEq

/-- Go runtime faults `writeChanges` hits. -/
inductive GoFault where
  | nilPointerDereference
deriving DecidableEq

/-- Translation of `file.Truncate(n)` — shrink, or grow with zero bytes. -/
def truncateFile (f : FileState) (n : Nat) : FileState :=
  ⟨f.content.take n ++ List.replicate (n - f.content.length) 0⟩

/-- Translation of `file.WriteAt(bs, offset)` — splice `bs` in at `offset`, zero-filling any
gap past the current end. -/
def writeAtFile (f : FileState) (offset : Nat) (bs : List Nat) : FileState :=
  ⟨f.content.take offset ++ List.replicate (offset - f.content.length) 0 ++ bs ++
    f.content.drop (offset + bs.length)⟩

/-- Translation of `rawDisk.writeChanges` (raw_disk.go lines 341-440) under Go runtime
semantics.  The first statement of the setup loop body declares
`var dbn *diskBranchNode` — a nil pointer — and the next statement writes
through it (`dbn.value = changeNode.after.value`, line 362), an unconditional
nil-pointer panic before any file operation; the loop body also assigns into
the nil map `diskChildren` (line 373) on the same, never-reached path, and
every later statement (size computation, address assignment, the
`Truncate` call and the frontier loop) is dead for a non-empty batch.  On an
empty batch the setup loop body never runs, `changeSize` stays 0, the file is
truncated to its own size, the frontier loop runs zero times over the empty
`frontierSet`, and the function returns nil.  The result pairs the file state
at return (respectively at the fault point) with the fault, if any. -/
def writeChangesGo (f : FileState) (changes : List (Key × changeEntry)) :
    FileState × Option GoFault :=
  match changes with
  | [] => (truncateFile f f.content.length, none)
  | _ :: _ => (f, some .nilPointerDereference)

/-- C4: on every batch with at least one node, `writeChanges` faults on the
nil `diskBranchNode` pointer in its first setup iteration, before any byte
reaches the file; it returns success only on the empty batch, where the file
is left unchanged (truncated to its own length). -/
theorem C4_writeChanges_faults :
    (∀ (f : FileState) (k : Key) (c : changeEntry) (rest : List (Key × changeEntry)),
      writeChangesGo f ((k, c) :: rest) = (f, some .nilPointerDereference)) ∧
    (∀ f : FileState,
      writeChangesGo f [] = (truncateFile f f.content.length, none) ∧
      truncateFile f f.content.length = f) := by
  refine ⟨fun f k c rest => rfl, fun f => ⟨rfl, ?_⟩⟩
  cases f with
  | mk content => simp [truncateFile]

/-- The child-table construction of the setup loop (raw_disk.go lines
371-384, its nil `diskChildren` map taken as allocated — the literal
statement faults, see C4): every child of a changed node, changed or not, is
entered with the empty address `diskAddress{}` ("leave empty, these will get
updated later"); the in-memory `child` carries no address that could be
preserved. -/
def setupDiskChildren (children : List (Nat × child)) : List (Nat × diskChild) :=
  children.map (fun p => (p.1, ⟨p.2, ⟨0, 0⟩⟩))

/-- State threaded through the frontier loop of `writeChanges`.  Each changed
key owns one `diskBranchNode` object which the frontier entries and the
child→parent map alias through the key (`arena`); `writes` logs the
`writeDiskAtNode` calls in order. -/
structure frontierState where
  arena : List (Key × diskBranchNode)
  frontierSet : List Key
  nodeToDiskAddressMap : List (Key × diskAddress)
  childToParentMap : List (Key × Key)
  file : FileState
  writes : List (Nat × List Nat)
deriving DecidableEq

/-- Dereference of a key's shared `diskBranchNode` object. -/
def arenaGet (a : List (Key × diskBranchNode)) (k : Key) : diskBranchNode :=
  (a.lookup k).getD ⟨none, []⟩

/-- In-place update of a key's shared `diskBranchNode` object. -/
def arenaSet (a : List (Key × diskBranchNode)) (k : Key) (v : diskBranchNode) :
    List (Key × diskBranchNode) :=
  a.map (fun q => if q.1 = k then (k, v) else q)

/-- The parent-patch loop (raw_disk.go lines 427-433): over all children of
the parent node, set the address of every entry passing
`parentNodeWithKey.key.iteratedHasPrefix(childNode.child.compressedKey,
parentNodeWithKey.key.length + tokenSize, tokenSize)` — an offset one token
past the parent key's own length. -/
def patchParentChildren (parentKey : Key) (addr : diskAddress) (dbn : diskBranchNode) :
    diskBranchNode :=
  ⟨dbn.value, dbn.children.map (fun p =>
    if iteratedHasPrefix parentKey p.2.child.compressedKey (parentKey.tokens.length + 1)
    then (p.1, ⟨p.2.child, addr⟩) else p)⟩

/-- The frontier loop of `writeChanges` (raw_disk.go lines 404-437): pop the
head node, encode it and write it at its assigned address, and if the
child→parent map names a parent, patch the parent's matching child entries
and append the parent to the frontier; with no parent, `continue` — nothing
else happens on that branch.  The pop is modelled as dropping the head: the
source's `frontierSet[1:len(frontierSet)+1]` reslices one slot past the
length, and the extra element it may expose depends on Go's unspecified slice
growth.  A missing map entry yields Go's zero value, as for a Go map read.
`fuel` bounds the iterations; the concrete runs below finish within it. -/
def frontierRun : Nat → frontierState → Option frontierState
  | 0, _ => none
  | fuel + 1, st =>
    match st.frontierSet with
    | [] => some st
    | currKey :: rest =>
      let dbn := arenaGet st.arena currKey
      let currNodeBytes := encodeDiskBranchNode dbn
      let diskAddr := (st.nodeToDiskAddressMap.lookup currKey).getD ⟨0, 0⟩
      let file := writeAtFile st.file diskAddr.offset.toNat currNodeBytes
      let writes := st.writes ++ [(diskAddr.offset.toNat, currNodeBytes)]
      match st.childToParentMap.lookup currKey with
      | none =>
        frontierRun fuel { st with frontierSet := rest, file := file, writes := writes }
      | some parentKey =>
        let patched := patchParentChildren parentKey diskAddr (arenaGet st.arena parentKey)
        frontierRun fuel { st with
          arena := arenaSet st.arena parentKey patched,
          frontierSet := rest ++ [parentKey],
          file := file, writes := writes }

/-- A file holding the 18-byte header: shutdown byte, a root-address slot
filled with sixteen 9s, one padding byte. -/
def c1File : FileState := ⟨0 :: (List.replicate 16 9 ++ [0])⟩

/-- The key of the single changed leaf in the C1 scenario. -/
def c1Key : Key := ⟨[0]⟩

/-- The state the setup loop intends to hand the frontier loop for the
single-leaf batch `{[0] ↦ {value: [1], children: {}}}`: the leaf seeded on
the frontier, its pre-assigned address at the end of the file, and an empty
child→parent index. -/
def c1State : frontierState :=
  ⟨[(c1Key, ⟨some [1], []⟩)], [c1Key], [(c1Key, ⟨18, 4⟩)], [], c1File, []⟩

set_option maxRecDepth 8000 in
/-- C1: the new root's disk address is never persisted into the root-address
slot.  The literal `writeChanges` faults on any non-empty batch with the file
untouched (first conjunct); and even the frontier loop, run on the state the
setup intends for a single-leaf batch, pops the new root, finds no parent,
and merely continues — it completes having written only the node bytes at
offset 18, with the 16-byte root-address field at offset 1 still holding its
old bytes, not the new root's address. -/
theorem C1_root_address_never_persisted :
    writeChangesGo c1File [(c1Key, ⟨⟨some [1], []⟩⟩)] =
      (c1File, some .nilPointerDereference) ∧
    ∃ stF, frontierRun 3 c1State = some stF ∧
      stF.writes = [(18, encodeDiskBranchNode ⟨some [1], []⟩)] ∧
      (stF.file.content.drop 1).take 16 = List.replicate 16 9 ∧
      (stF.file.content.drop 1).take 16 ≠ diskAddress.bytes ⟨18, 4⟩ := by
  exact ⟨rfl, ⟨_, rfl, by decide, by decide, by decide⟩⟩

/-- In-memory child entries of the C2 scenario: P's edge to A (index 0), P's
edge to B (index 1), and B's edge to C (index 0), all with empty compressed
keys. -/
def cA : child := ⟨⟨[]⟩, List.replicate 32 5, false⟩

def cB : child := ⟨⟨[]⟩, List.replicate 32 6, false⟩

def cC : child := ⟨⟨[]⟩, List.replicate 32 7, true⟩

/-- The state the setup intends for the batch changing P (key `[]`, children
A at token 0 and B at token 1), A (key `[0]`, a leaf), B (key `[1]`, child C
at token 0) and C (key `[1, 0]`, a leaf): the two leaves A and C seeded on
the frontier in that order, every child entry zero-addressed, and the
child→parent index keyed by the child's key as the spec describes. -/
def c2State : frontierState :=
  ⟨[(⟨[]⟩, ⟨none, setupDiskChildren [(0, cA), (1, cB)]⟩),
    (⟨[0]⟩, ⟨some [1], []⟩),
    (⟨[1]⟩, ⟨none, setupDiskChildren [(0, cC)]⟩),
    (⟨[1, 0]⟩, ⟨some [3], []⟩)],
   [⟨[0]⟩, ⟨[1, 0]⟩],
   [(⟨[0]⟩, ⟨100, 4⟩), (⟨[1, 0]⟩, ⟨200, 4⟩), (⟨[]⟩, ⟨300, 80⟩), (⟨[1]⟩, ⟨400, 42⟩)],
   [(⟨[0]⟩, ⟨[]⟩), (⟨[1]⟩, ⟨[]⟩), (⟨[1, 0]⟩, ⟨[1]⟩)],
   ⟨[]⟩, []⟩

set_option maxRecDepth 20000 in
/-- C2: a parent is enqueued after its first written child, not after all of
them.  Running the frontier loop on the C2 batch, whose parent P has the two
changed children A and B: popping A (trace index 0) appends P, so P is
encoded and written at trace index 2 — before B is written at trace index 3 —
and P's bytes at that point carry the zero address for the B entry (indeed
for every entry: the patch predicate, probing one token past the parent key's
own length, never matches). -/
theorem C2_parent_enqueued_before_children_written :
    ∃ stF, frontierRun 8 c2State = some stF ∧
      stF.writes.map Prod.fst = [100, 200, 300, 400, 300] ∧
      stF.writes.get? 2 = some (300,
        encodeDiskBranchNode ⟨none, [(0, ⟨cA, ⟨0, 0⟩⟩), (1, ⟨cB, ⟨0, 0⟩⟩)]⟩) ∧
      stF.writes.get? 3 = some (400,
        encodeDiskBranchNode ⟨none, [(0, ⟨cC, ⟨0, 0⟩⟩)]⟩) := by
  exact ⟨_, rfl, by decide, by decide, by decide⟩

/-- The unchanged child of the C3 scenario, whose entry on disk held the
address offset 42, size 7 before the commit. -/
def cU : child := ⟨⟨[]⟩, List.replicate 32 8, false⟩

/-- The state the setup intends for the C3 batch changing P (key `[]`, with
changed child A at token 0 and unchanged child U at token 1) and A (key
`[0]`, a leaf): A seeded on the frontier, both of P's entries zero-addressed
by the setup. -/
def c3State : frontierState :=
  ⟨[(⟨[]⟩, ⟨some [2], setupDiskChildren [(0, cA), (1, cU)]⟩),
    (⟨[0]⟩, ⟨some [1], []⟩)],
   [⟨[0]⟩],
   [(⟨[0]⟩, ⟨18, 4⟩), (⟨[]⟩, ⟨30, 80⟩)],
   [(⟨[0]⟩, ⟨[]⟩), (⟨[1]⟩, ⟨[]⟩)],
   ⟨[]⟩, []⟩

set_option maxRecDepth 20000 in
/-- C3: an unchanged child does not keep its pre-existing disk address.  The
setup enters every child of a changed node with the empty address
`diskAddress{}` (first conjunct), and the frontier loop then writes the
parent's bytes with the unchanged child U's entry still zero-addressed —
bytes that differ from the encoding that preserves U's pre-existing address
offset 42, size 7 (the in-memory change record holds no address that could
restore it). -/
theorem C3_unchanged_child_address_zeroed :
    setupDiskChildren [(0, cA), (1, cU)] = [(0, ⟨cA, ⟨0, 0⟩⟩), (1, ⟨cU, ⟨0, 0⟩⟩)] ∧
    ∃ stF, frontierRun 4 c3State = some stF ∧
      stF.writes.get? 1 = some (30,
        encodeDiskBranchNode ⟨some [2], setupDiskChildren [(0, cA), (1, cU)]⟩) ∧
      encodeDiskBranchNode ⟨some [2], setupDiskChildren [(0, cA), (1, cU)]⟩ ≠
        encodeDiskBranchNode ⟨some [2], [(0, ⟨cA, ⟨0, 0⟩⟩), (1, ⟨cU, ⟨42, 7⟩⟩)]⟩ := by
  exact ⟨by decide, ⟨_, rfl, by decide, by decide⟩⟩

end AvaMerkleDB
